import Mathlib

/-!
Verification development for the MRA (multi-relational algebra) engine:
a shallow embedding of `src/mra_data.py`, `src/mra_operators.py` and
`src/slice_transformations/slice_transformation.py`, followed by theorems
about the data model and the operator algebra.

Python dictionaries are modelled as association lists with in-place update
semantics (`updateAssoc` / `lookupA`); pandas DataFrames are modelled as a
column-name list plus a list of rows (`DataFrame`), with the handful of
tabular operations the engine uses (projection, cross join, group-by,
aggregation) given explicit list-level definitions.
-/

namespace MRA

/-- Cell values stored in tables and region tuples.  The Python code uses
arbitrary hashable values; strings and integers cover every value the
repository constructs. -/
inductive Val where
  | str : String → Val
  | int : Int → Val
deriving DecidableEq, Repr

/-- Lexicographic comparison of character lists by code point — Python's
string ordering, written out so that the kernel can evaluate it. -/
def charListLe : List Char → List Char → Bool
  | [], _ => true
  | _ :: _, [] => false
  | a :: as, b :: bs => if a = b then charListLe as bs else decide (a < b)

/-- Python's `<=` on strings. -/
def strLeB (a b : String) : Bool := charListLe a.data b.data

/-- Ordering on cell values, used only to mirror pandas' sorted group keys
(`groupby(..., sort=True)`, the default).  Within one column the repository
only ever compares values of the same constructor. -/
def Val.leB : Val → Val → Bool
  | .int a, .int b => a ≤ b
  | .str a, .str b => strLeB a b
  | .int _, .str _ => true
  | .str _, .int _ => false

/-- Lexicographic ordering on composite group keys (tuples of cell values). -/
def keyLeB : List Val → List Val → Bool
  | [], _ => true
  | _ :: _, [] => false
  | a :: as, b :: bs => if a = b then keyLeB as bs else Val.leB a b

/-- Embeds `mra_data.RelationSchema`: attributes stored internally as a sorted tuple
so that order does not affect equality. -/
structure RelationSchema where
  attributes : List String
deriving DecidableEq, Repr

/-- Embeds `RelationSchema.__init__`: the attribute list is sorted on construction
(`tuple(sorted(attributes))`). -/
def RelationSchema.ofList (attrs : List String) : RelationSchema :=
  ⟨List.insertionSort (fun a b => strLeB a b = true) attrs⟩

/-- Embeds `mra_data.RelationTuple`: a canonical sequence of (attribute, value)
pairs. -/
abbrev RelationTuple := List (String × Val)

/-- Embeds `mra_data.create_relation_tuple`: sorts the dictionary's key-value pairs
by key (`tuple(sorted(key_values.items()))`; dictionary keys are unique, so
sorting the items of a dict orders them by key). -/
def create_relation_tuple (key_values : List (String × Val)) : RelationTuple :=
  List.insertionSort (fun p q => strLeB p.1 q.1 = true) key_values

/-- Python `dict` assignment `d[k] = v`: replace in place if the key is
present, append otherwise (insertion order is preserved). -/
def updateAssoc {κ β : Type} [DecidableEq κ] (k : κ) (v : β) : List (κ × β) → List (κ × β)
  | [] => [(k, v)]
  | (k', v') :: rest => if k' = k then (k, v) :: rest else (k', v') :: updateAssoc k v rest

/-- Python `dict.get(k)`: first (unique) binding of `k`, if any. -/
def lookupA {κ β : Type} [DecidableEq κ] (k : κ) : List (κ × β) → Option β
  | [] => none
  | (k', v') :: rest => if k' = k then some v' else lookupA k rest

/-- A pandas DataFrame: ordered column names plus rows of cells (each row
aligned with `cols`). -/
structure DataFrame where
  cols : List String
  rows : List (List Val)
deriving DecidableEq, Repr

/-- Cell of `row` (aligned with `cols`) in column `c`. -/
def rowCell (cols : List String) (row : List Val) (c : String) : Val :=
  row.getD (cols.indexOf c) (Val.int 0)

namespace DataFrame

/-- Column projection `df[cs]`. -/
def select (df : DataFrame) (cs : List String) : DataFrame :=
  ⟨cs, df.rows.map (fun r => cs.map (rowCell df.cols r))⟩

/-- Embeds `df.merge(other, how='cross')`: Cartesian product of the rows. -/
def crossJoin (a b : DataFrame) : DataFrame :=
  ⟨a.cols ++ b.cols, a.rows.flatMap (fun ra => b.rows.map (fun rb => ra ++ rb))⟩

/-- All values of column `c`, in row order. -/
def colValues (df : DataFrame) (c : String) : List Val :=
  df.rows.map (fun r => rowCell df.cols r c)

/-- Embeds `df.agg(aggregations).to_frame().T`: one aggregate row over the whole
table; an aggregation maps a column name to a function of that column's
values. -/
def aggRow (df : DataFrame) (aggs : List (String × (List Val → Val))) : DataFrame :=
  ⟨aggs.map Prod.fst, [aggs.map (fun a => a.2 (df.colValues a.1))]⟩

/-- The key of `row` under grouping columns `ks`. -/
def keyOfRow (df : DataFrame) (ks : List String) (row : List Val) : List Val :=
  ks.map (rowCell df.cols row)

/-- The distinct group keys, sorted (pandas `groupby` sorts group keys by
default). -/
def groupKeys (df : DataFrame) (ks : List String) : List (List Val) :=
  List.insertionSort (fun k1 k2 => keyLeB k1 k2 = true)
    ((df.rows.map (df.keyOfRow ks)).dedup)

/-- Embeds `df.groupby(ks)`: each group key paired with the sub-table of its rows. -/
def groupBy (df : DataFrame) (ks : List String) : List (List Val × DataFrame) :=
  (df.groupKeys ks).map
    (fun k => (k, ⟨df.cols, df.rows.filter (fun r => df.keyOfRow ks r = k)⟩))

/-- Embeds `df.groupby(ks).agg(aggs).reset_index()`: one row per group, key values
followed by the per-group aggregates. -/
def groupbyAgg (df : DataFrame) (ks : List String)
    (aggs : List (String × (List Val → Val))) : DataFrame :=
  ⟨ks ++ aggs.map Prod.fst,
   (df.groupBy ks).map (fun kg => kg.1 ++ aggs.map (fun a => a.2 (kg.2.colValues a.1)))⟩

end DataFrame

/-- Embeds `mra_data.RelationSpace`: a dimension schema plus a dictionary from
`RelationSchema` to tables. -/
structure RelationSpace where
  dimensions : RelationSchema
  relations : List (RelationSchema × DataFrame)
deriving Repr

/-- Embeds `RelationSpace.add_relation`: stores the relation under its dimensional
schema.  The method performs no validation (see `mra_data.py`, lines 39-41):
it unconditionally writes the dictionary entry. -/
def RelationSpace.add_relation (s : RelationSpace) (relation : DataFrame)
    (dimensional_schema : RelationSchema) : RelationSpace :=
  { s with relations := updateAssoc dimensional_schema relation s.relations }

/-- Embeds `RelationSpace.get_relation`: dictionary lookup, `none` when absent. -/
def RelationSpace.get_relation (s : RelationSpace)
    (dimensional_schema : RelationSchema) : Option DataFrame :=
  lookupA dimensional_schema s.relations

/-- A region's feature map: feature schema to feature table. -/
abbrev FeatureMap := List (RelationSchema × DataFrame)

/-- Embeds `mra_data.SliceRelation`: a dimension schema plus the two-level dictionary
from region to feature map. -/
structure SliceRelation where
  dimensions : RelationSchema
  data : List (RelationTuple × FeatureMap)
deriving Repr

/-- Embeds `SliceRelation.add_slice_tuple`: `data[region][feature_schema] =
feature_data`, creating the inner dictionary when the region is new. -/
def SliceRelation.add_slice_tuple (sr : SliceRelation) (region : RelationTuple)
    (feature_schema : RelationSchema) (feature_data : DataFrame) : SliceRelation :=
  { sr with
    data := updateAssoc region
      (updateAssoc feature_schema feature_data ((lookupA region sr.data).getD []))
      sr.data }

/-! ## Operators (`src/mra_operators.py`) -/

/-- Embeds `mra_operators.Pipeline`: an ordered list of operators.  Every operator's
observable behaviour is its `__call__` function, so the elements are modelled
as functions on the data type. -/
structure Pipeline (α : Type) where
  operators : List (α → α)

/-- Embeds `Pipeline._execute`: runs the operators strictly in sequence, each
consuming the previous operator's output. -/
def Pipeline.execute {α : Type} (p : Pipeline α) (data : α) : α :=
  p.operators.foldl (fun result op => op result) data

/-- Embeds `Pipeline.__or__` when the right operand is itself a `Pipeline`:
concatenates the two operator lists. -/
def Pipeline.pipeOr {α : Type} (p other : Pipeline α) : Pipeline α :=
  ⟨p.operators ++ other.operators⟩

/-- Embeds `MraOperatorBase.__or__` for two plain operators: `Pipeline([self, other])`. -/
def opOr {α : Type} (f g : α → α) : Pipeline α := ⟨[f, g]⟩

/-- The power set of the grouping keys enumerated by size, mirroring
`chain.from_iterable(combinations(keys, r) for r in range(len(keys) + 1))`. -/
def powerSetList (keys : List String) : List (List String) :=
  (List.range (keys.length + 1)).flatMap (fun r => List.sublistsLen r keys)

/-- Embeds `mra_operators.CreateRelationSpaceByCube`. -/
structure CreateRelationSpaceByCube where
  grouping_keys : List String
  aggregations : List (String × (List Val → Val))

/-- Embeds `CreateRelationSpaceByCube._execute`: for each subset of the grouping
keys, the whole-table aggregate (empty subset) or the group-by aggregate,
stored under the subset's schema in a space whose dimension schema is built
from the grouping keys. -/
def CreateRelationSpaceByCube.execute (op : CreateRelationSpaceByCube)
    (data : DataFrame) : RelationSpace :=
  (powerSetList op.grouping_keys).foldl
    (fun relation_space group =>
      let agg_df := if group = [] then data.aggRow op.aggregations
                    else data.groupbyAgg group op.aggregations
      relation_space.add_relation agg_df (RelationSchema.ofList group))
    ⟨RelationSchema.ofList op.grouping_keys, []⟩

/-- Embeds `mra_operators.Represent`. -/
structure Represent where
  region_schemas : List RelationSchema
  feature_schemas : List RelationSchema

/-- Embeds `target_dim_schema` of `Represent._execute`: the attributes of the pair
(`target_attributes = r_schema.attributes + f_schema.attributes`) restricted
to the space's dimensions, canonicalized. -/
def Represent.targetDimSchema (space : RelationSpace)
    (r_schema f_schema : RelationSchema) : RelationSchema :=
  RelationSchema.ofList ((r_schema.attributes ++ f_schema.attributes).filter
    (fun a => a ∈ space.dimensions.attributes))

/-- The body of `Represent._execute`'s nested loops, for one
(region schema, feature schema) pair: look the table up under the pair's
target dimensional schema (skip when absent), skip when the table lacks any
column of the pair (`region_cols = r_schema.attributes`,
`feature_cols = f_schema.attributes`), emit the whole feature projection
under the empty region when the region schema is empty, and otherwise group
by the region columns and emit each group's feature projection under the
group's region tuple. -/
def Represent.processPair (space : RelationSpace) (acc : SliceRelation)
    (r_schema f_schema : RelationSchema) : SliceRelation :=
  match space.get_relation (Represent.targetDimSchema space r_schema f_schema) with
  | none => acc
  | some relation_to_partition =>
    if ¬ (∀ c ∈ r_schema.attributes ++ f_schema.attributes,
        c ∈ relation_to_partition.cols) then acc
    else if r_schema.attributes = [] then
      acc.add_slice_tuple (create_relation_tuple [])
        f_schema (relation_to_partition.select f_schema.attributes)
    else
      (relation_to_partition.groupBy r_schema.attributes).foldl
        (fun a kg => a.add_slice_tuple
          (create_relation_tuple (r_schema.attributes.zip kg.1))
          f_schema (kg.2.select f_schema.attributes)) acc

/-- Embeds `Represent._execute` with the nested loops over
`region_schemas × feature_schemas` flattened into one pair list. -/
def Represent.run (space : RelationSpace)
    (pairs : List (RelationSchema × RelationSchema)) : SliceRelation :=
  pairs.foldl (fun acc rf => Represent.processPair space acc rf.1 rf.2)
    ⟨space.dimensions, []⟩

def Represent.execute (op : Represent) (space : RelationSpace) : SliceRelation :=
  Represent.run space
    (op.region_schemas.flatMap (fun r => op.feature_schemas.map (fun f => (r, f))))

/-- Embeds `slice_transformations.slice_transformation.SliceTransformation`: declares
its required feature schema, whether it needs reference data, and its
table-to-table logic.  The Python class receives reference data through a
property setter before a run; the embedding passes the bound reference table
explicitly as the first argument of `apply`. -/
structure SliceTransformation where
  feature_schema : RelationSchema
  require_reference_data : Bool
  apply : Option DataFrame → DataFrame → DataFrame

/-- The `ValueError` message of the `reference_data` setter when reference
data is required but absent. -/
def refDataErrMsg : String :=
  "The transformation requires reference data, but none was provided."

/-- Embeds `mra_operators.SliceTransform` (the second, effective definition of the
class; a first definition earlier in the file is shadowed by it). -/
structure SliceTransform where
  slice_transformations : List SliceTransformation
  dimensions : RelationSchema
  drill_down_regions : Option (List RelationTuple)
  parent_region_schemas : Option (List RelationSchema)

/-- Embeds `SliceTransform._is_descendant`: for each index `i` of the candidate's
components, remove component `i`; if the projection's schema is among the
parent schemas, the projected tuple must be a parent region. -/
def SliceTransform.is_descendant (region_to_check : RelationTuple)
    (parent_regions : List RelationTuple)
    (parent_schemas : List RelationSchema) : Bool :=
  let components := region_to_check
  let k := components.length
  (List.range k).all (fun i =>
    let projection_components := components.take i ++ components.drop (i + 1)
    let proj_schema := RelationSchema.ofList (projection_components.map Prod.fst)
    if proj_schema ∈ parent_schemas then
      decide (create_relation_tuple projection_components ∈ parent_regions)
    else true)

/-- The two inner feature loops of `SliceTransform._execute` for one region:
features whose schema is in the transformation map are transformed and stored
under the output table's column-derived schema; the rest pass through. -/
def SliceTransform.applyToRegion (tmap : List (RelationSchema × SliceTransformation))
    (reference_features : FeatureMap) (acc : SliceRelation)
    (region : RelationTuple) (features : FeatureMap) : SliceRelation :=
  let acc1 := features.foldl (fun a fd =>
    match lookupA fd.1 tmap with
    | some t =>
        let transformed_df := t.apply (lookupA t.feature_schema reference_features) fd.2
        a.add_slice_tuple region (RelationSchema.ofList transformed_df.cols) transformed_df
    | none => a) acc
  features.foldl (fun a fd =>
    if (lookupA fd.1 tmap).isSome then a
    else a.add_slice_tuple region fd.1 fd.2) acc1

/-- The body of `SliceTransform._execute`'s region loop: the empty region is
skipped, then the drill-down descendant check (when a frontier is supplied)
may skip the region, and otherwise the feature loops run. -/
def SliceTransform.processRegion (op : SliceTransform)
    (tmap : List (RelationSchema × SliceTransformation))
    (reference_features : FeatureMap) (acc : SliceRelation)
    (region : RelationTuple) (features : FeatureMap) : SliceRelation :=
  if region = create_relation_tuple [] then acc
  else
    match op.drill_down_regions, op.parent_region_schemas with
    | some dr, some ps =>
        if SliceTransform.is_descendant region dr ps then
          SliceTransform.applyToRegion tmap reference_features acc region features
        else acc
    | _, _ => SliceTransform.applyToRegion tmap reference_features acc region features

/-- Embeds `transform_map = {t.feature_schema: t for t in self.slice_transformations}`:
a dict comprehension, so a later transformation with the same feature schema
overwrites an earlier one. -/
def SliceTransform.tmap (op : SliceTransform) :
    List (RelationSchema × SliceTransformation) :=
  op.slice_transformations.foldl (fun m t => updateAssoc t.feature_schema t m) []

/-- Embeds `reference_features = data.data.get(empty_region_tuple, {})`. -/
def SliceRelation.referenceFeatures (data : SliceRelation) : FeatureMap :=
  (lookupA (create_relation_tuple []) data.data).getD []

/-- Embeds `SliceTransform._execute` (the effective definition): build the
transformation map, bind reference data from the empty region's feature map —
raising the setter's `ValueError` if some transformation requires reference
data that is absent — then process every region into a fresh
`SliceRelation` with the operator's output dimensions. -/
def SliceTransform.execute (op : SliceTransform) (data : SliceRelation) :
    Except String SliceRelation :=
  if op.slice_transformations.any (fun t =>
      t.require_reference_data && (lookupA t.feature_schema data.referenceFeatures).isNone)
  then .error refDataErrMsg
  else .ok (data.data.foldl
    (fun acc rf => op.processRegion op.tmap data.referenceFeatures acc rf.1 rf.2)
    ⟨op.dimensions, []⟩)

/-- Embeds `mra_operators.SliceSelect`. -/
structure SliceSelect where
  predicate_func : RelationTuple → FeatureMap → Bool

/-- Embeds `SliceSelect._execute`: keeps exactly the slice tuples on which the
predicate returns true; the kept tuple's features are re-added one by one. -/
def SliceSelect.execute (op : SliceSelect) (data : SliceRelation) : SliceRelation :=
  data.data.foldl (fun acc rf =>
    if op.predicate_func rf.1 rf.2 then
      rf.2.foldl (fun a fd => a.add_slice_tuple rf.1 fd.1 fd.2) acc
    else acc) ⟨data.dimensions, []⟩

/-- Embeds `mra_operators.Flatten`. -/
structure Flatten where
  dimensions : RelationSchema

/-- The wide table `Flatten._execute` builds for one region: the one-row
table of the region's attribute/value pairs, cross-joined in turn with each
feature table that is not empty (pandas `df.empty`: some axis has length 0). -/
def Flatten.regionTable (region : RelationTuple) (features : FeatureMap) : DataFrame :=
  let region_df : DataFrame := ⟨region.map Prod.fst, [region.map Prod.snd]⟩
  (features.map Prod.snd).foldl
    (fun final_df feature_df =>
      if feature_df.rows.isEmpty || feature_df.cols.isEmpty then final_df
      else final_df.crossJoin feature_df) region_df

/-- Embeds `Flatten._execute`: every region of the input — the empty region is not
exempted — contributes its wide table, stored under the schema of the
region's own attributes, into a space with the caller-supplied dimensions. -/
def Flatten.execute (op : Flatten) (data : SliceRelation) : RelationSpace :=
  data.data.foldl (fun space rf =>
    space.add_relation (Flatten.regionTable rf.1 rf.2)
      (RelationSchema.ofList (rf.1.map Prod.fst)))
    ⟨op.dimensions, []⟩

/-! ## Theorems -/

/-! ### Order properties of the string comparison used for canonicalization -/

theorem charListLe_total : ∀ a b, charListLe a b = true ∨ charListLe b a = true
  | [], _ => .inl rfl
  | _ :: _, [] => .inr rfl
  | a :: as, b :: bs => by
    by_cases h : a = b
    · subst h
      simpa [charListLe] using charListLe_total as bs
    · rcases lt_or_gt_of_ne h with hlt | hgt
      · left; simp [charListLe, h, hlt]
      · right; simp [charListLe, Ne.symm h, hgt]

theorem charListLe_trans : ∀ {a b c}, charListLe a b = true → charListLe b c = true →
    charListLe a c = true
  | [], _, _, _, _ => rfl
  | _ :: _, [], _, h1, _ => by simp [charListLe] at h1
  | _ :: _, _ :: _, [], _, h2 => by simp [charListLe] at h2
  | a :: as, b :: bs, c :: cs, h1, h2 => by
    by_cases hab : a = b
    · subst hab
      by_cases hac : a = c
      · subst hac
        simp only [charListLe, if_pos rfl] at h1 h2 ⊢
        exact charListLe_trans h1 h2
      · simp only [charListLe, if_pos rfl] at h1
        simpa [charListLe, hac] using h2
    · by_cases hbc : b = c
      · subst hbc
        simpa [charListLe, hab] using h1
      · simp only [charListLe, if_neg hab, decide_eq_true_eq] at h1
        simp only [charListLe, if_neg hbc, decide_eq_true_eq] at h2
        have hac : a < c := lt_trans h1 h2
        simp [charListLe, ne_of_lt hac, hac]

theorem charListLe_antisymm : ∀ {a b}, charListLe a b = true → charListLe b a = true → a = b
  | [], [], _, _ => rfl
  | [], _ :: _, _, h2 => by simp [charListLe] at h2
  | _ :: _, [], h1, _ => by simp [charListLe] at h1
  | a :: as, b :: bs, h1, h2 => by
    by_cases hab : a = b
    · subst hab
      simp only [charListLe, if_pos rfl] at h1 h2
      rw [charListLe_antisymm h1 h2]
    · simp only [charListLe, if_neg hab, decide_eq_true_eq] at h1
      simp only [charListLe, if_neg (Ne.symm hab), decide_eq_true_eq] at h2
      exact absurd h1 (lt_asymm h2)

theorem strLeB_total (a b : String) : strLeB a b = true ∨ strLeB b a = true :=
  charListLe_total a.data b.data

theorem strLeB_trans {a b c : String} (h1 : strLeB a b = true) (h2 : strLeB b c = true) :
    strLeB a c = true :=
  charListLe_trans h1 h2

theorem strLeB_antisymm {a b : String} (h1 : strLeB a b = true) (h2 : strLeB b a = true) :
    a = b := by
  have h := charListLe_antisymm h1 h2
  cases a; cases b; exact congrArg String.mk h

/-! ### Dictionary (association list) lemmas -/

theorem lookupA_updateAssoc_self {κ β : Type} [DecidableEq κ] (k : κ) (v : β) :
    ∀ l : List (κ × β), lookupA k (updateAssoc k v l) = some v
  | [] => by simp [updateAssoc, lookupA]
  | (k', v') :: rest => by
    by_cases h : k' = k
    · simp [updateAssoc, h, lookupA]
    · simp [updateAssoc, h, lookupA, lookupA_updateAssoc_self k v rest]

theorem lookupA_updateAssoc_ne {κ β : Type} [DecidableEq κ] {q k : κ} (h : q ≠ k) (v : β) :
    ∀ l : List (κ × β), lookupA q (updateAssoc k v l) = lookupA q l
  | [] => by simp [updateAssoc, lookupA, Ne.symm h]
  | (k', v') :: rest => by
    by_cases hk : k' = k
    · subst hk
      simp [updateAssoc, lookupA, Ne.symm h]
    · simp [updateAssoc, hk, lookupA, lookupA_updateAssoc_ne h v rest]

theorem updateAssoc_length_absent {κ β : Type} [DecidableEq κ] {k : κ} (v : β) :
    ∀ {l : List (κ × β)}, lookupA k l = none →
      (updateAssoc k v l).length = l.length + 1
  | [], _ => rfl
  | (k', v') :: rest, h => by
    by_cases hk : k' = k
    · simp [lookupA, hk] at h
    · simp only [lookupA, if_neg hk] at h
      simp [updateAssoc, hk, updateAssoc_length_absent v h]

/-- Folding dictionary updates: the final binding of `k` comes from the last
element whose key is `k`, and is the initial binding when there is none. -/
theorem lookupA_foldl_update {κ β γ : Type} [DecidableEq κ] (key : γ → κ) (val : γ → β) :
    ∀ (l : List γ) (init : List (κ × β)) (k : κ),
      lookupA k (l.foldl (fun m a => updateAssoc (key a) (val a) m) init) =
        match l.reverse.find? (fun a => decide (key a = k)) with
        | some a => some (val a)
        | none => lookupA k init
  | [], init, k => by simp
  | a :: t, init, k => by
    rw [List.foldl_cons, lookupA_foldl_update key val t _ k]
    rw [List.reverse_cons, List.find?_append]
    cases hf : t.reverse.find? (fun b => decide (key b = k)) with
    | some b => simp [hf]
    | none =>
      by_cases hk : key a = k
      · subst hk
        simp [hf, lookupA_updateAssoc_self]
      · simp [hf, hk, lookupA_updateAssoc_ne (Ne.symm hk)]

theorem length_foldl_update {κ β γ : Type} [DecidableEq κ] (key : γ → κ) (val : γ → β) :
    ∀ (l : List γ) (init : List (κ × β)),
      (∀ a ∈ l, lookupA (key a) init = none) → (l.map key).Nodup →
      (l.foldl (fun m a => updateAssoc (key a) (val a) m) init).length =
        init.length + l.length
  | [], init, _, _ => rfl
  | a :: t, init, habs, hnd => by
    rw [List.foldl_cons]
    have hinit : lookupA (key a) init = none := habs a (by simp)
    have hstep : ∀ b ∈ t, lookupA (key b) (updateAssoc (key a) (val a) init) = none := by
      intro b hb
      have hne : key b ≠ key a := by
        intro he
        have := (List.nodup_cons.mp hnd).1
        exact this (he ▸ List.mem_map_of_mem key hb)
      rw [lookupA_updateAssoc_ne hne, habs b (List.mem_cons_of_mem _ hb)]
    rw [length_foldl_update key val t _ hstep (List.nodup_cons.mp hnd).2,
      updateAssoc_length_absent _ hinit]
    simp only [List.length_cons]
    omega

/-- If `p` holds at `x ∈ l` and nowhere else in `l`, then `find?` returns `x`. -/
theorem find?_eq_some_of_unique {γ : Type} {p : γ → Bool} :
    ∀ {l : List γ} {x : γ}, x ∈ l → p x = true → (∀ y ∈ l, p y = true → y = x) →
      l.find? p = some x
  | [], x, hx, _, _ => by simp at hx
  | a :: t, x, hx, hpx, huniq => by
    by_cases ha : p a = true
    · have : a = x := huniq a (by simp) ha
      subst this
      simp [List.find?_cons_of_pos _ ha]
    · have hxt : x ∈ t := by
        rcases List.mem_cons.mp hx with h | h
        · exact absurd (h ▸ hpx) ha
        · exact h
      rw [List.find?_cons_of_neg _ (by simpa using ha)]
      exact find?_eq_some_of_unique hxt hpx (fun y hy => huniq y (List.mem_cons_of_mem _ hy))

/-! ### Sublist lemmas for the cube enumeration -/

/-- Two sublists of a duplicate-free list that are permutations of each other
are equal. -/
theorem sublist_perm_eq_of_nodup {α : Type} :
    ∀ {l s t : List α}, l.Nodup → List.Sublist s l → List.Sublist t l → s.Perm t → s = t := by
  intro l
  induction l with
  | nil =>
    intro s t _ hs ht _
    rw [List.sublist_nil.mp hs, List.sublist_nil.mp ht]
  | cons a l' ih =>
    intro s t hn hs ht hperm
    have ha : a ∉ l' := (List.nodup_cons.mp hn).1
    have hn' : l'.Nodup := (List.nodup_cons.mp hn).2
    cases hs with
    | cons _ hs' =>
      cases ht with
      | cons _ ht' => exact ih hn' hs' ht' hperm
      | cons₂ _ ht' =>
        exact absurd (hs'.subset (hperm.symm.subset (by simp)))
          ha
    | cons₂ _ hs' =>
      cases ht with
      | cons _ ht' =>
        exact absurd (ht'.subset (hperm.subset (by simp))) ha
      | cons₂ _ ht' =>
        rw [ih hn' hs' ht' hperm.cons_inv]

/-- Helper: `RelationSchema.ofList` is injective on sublists of a duplicate-free
attribute universe. -/
theorem ofList_inj_on_sublists {l s t : List String} (hn : l.Nodup) (hs : List.Sublist s l)
    (ht : List.Sublist t l) (h : RelationSchema.ofList s = RelationSchema.ofList t) : s = t := by
  have hsort : List.insertionSort (fun a b => strLeB a b = true) s =
      List.insertionSort (fun a b => strLeB a b = true) t :=
    congrArg RelationSchema.attributes h
  have hperm : s.Perm t :=
    (List.perm_insertionSort _ s).symm.trans (hsort ▸ List.perm_insertionSort _ t)
  exact sublist_perm_eq_of_nodup hn hs ht hperm

theorem mem_powerSetList {keys x : List String} (h : x ∈ powerSetList keys) : List.Sublist x keys := by
  simp only [powerSetList, List.mem_flatMap, List.mem_range] at h
  obtain ⟨r, _, hx⟩ := h
  exact (List.mem_sublistsLen.mp hx).1

theorem self_mem_powerSetList {keys S : List String} (h : List.Sublist S keys) :
    S ∈ powerSetList keys := by
  simp only [powerSetList, List.mem_flatMap, List.mem_range]
  exact ⟨S.length, Nat.lt_succ_of_le h.length_le, List.mem_sublistsLen_self h⟩

theorem powerSetList_nodup {keys : List String} (h : keys.Nodup) :
    (powerSetList keys).Nodup :=
  (List.range_bind_sublistsLen_perm keys).nodup_iff.mpr (List.nodup_sublists'.mpr h)

theorem powerSetList_length (keys : List String) :
    (powerSetList keys).length = 2 ^ keys.length := by
  have := (List.range_bind_sublistsLen_perm keys).length_eq
  rw [powerSetList, this, List.length_sublists']

/-! ### SliceRelation lemmas -/

theorem lookupA_add_slice_tuple_ne (sr : SliceRelation) {q r : RelationTuple}
    (h : q ≠ r) (f : RelationSchema) (d : DataFrame) :
    lookupA q (sr.add_slice_tuple r f d).data = lookupA q sr.data :=
  lookupA_updateAssoc_ne h _ _

theorem lookupA_add_slice_tuple_self (sr : SliceRelation) (r : RelationTuple)
    (f : RelationSchema) (d : DataFrame) :
    lookupA r (sr.add_slice_tuple r f d).data =
      some (updateAssoc f d ((lookupA r sr.data).getD [])) :=
  lookupA_updateAssoc_self _ _ _

/-- A fold whose every step leaves the binding of region `q` unchanged leaves
it unchanged overall. -/
theorem lookupA_foldl_preserve {γ : Type} (q : RelationTuple)
    (step : SliceRelation → γ → SliceRelation)
    (hstep : ∀ acc a, lookupA q (step acc a).data = lookupA q acc.data) :
    ∀ (l : List γ) (acc : SliceRelation),
      lookupA q (l.foldl step acc).data = lookupA q acc.data
  | [], _ => rfl
  | a :: t, acc => by
    rw [List.foldl_cons, lookupA_foldl_preserve q step hstep t _, hstep]

/-- Helper: `SliceTransform.applyToRegion` only writes the processed region: any other
region's binding is untouched. -/
theorem applyToRegion_lookup_ne {q region : RelationTuple} (h : q ≠ region)
    (tmap : List (RelationSchema × SliceTransformation)) (refF : FeatureMap)
    (features : FeatureMap) (acc : SliceRelation) :
    lookupA q (SliceTransform.applyToRegion tmap refF acc region features).data =
      lookupA q acc.data := by
  unfold SliceTransform.applyToRegion
  refine (lookupA_foldl_preserve q _ (fun acc' fd => ?_) features _).trans
    (lookupA_foldl_preserve q _ (fun acc' fd => ?_) features acc)
  · dsimp only
    split
    · rfl
    · exact lookupA_add_slice_tuple_ne _ h _ _
  · dsimp only
    split
    · exact lookupA_add_slice_tuple_ne _ h _ _
    · rfl

/-- Helper: `SliceTransform.processRegion` never writes the empty region. -/
theorem processRegion_lookup_empty (op : SliceTransform)
    (tmap : List (RelationSchema × SliceTransformation)) (refF : FeatureMap)
    (acc : SliceRelation) (region : RelationTuple) (features : FeatureMap) :
    lookupA (create_relation_tuple [])
        (op.processRegion tmap refF acc region features).data =
      lookupA (create_relation_tuple []) acc.data := by
  unfold SliceTransform.processRegion
  by_cases hr : region = create_relation_tuple []
  · rw [if_pos hr]
  · rw [if_neg hr]
    have hq : create_relation_tuple [] ≠ region := fun hx => hr hx.symm
    cases op.drill_down_regions with
    | none => exact applyToRegion_lookup_ne hq _ _ _ _
    | some dr =>
      cases op.parent_region_schemas with
      | none => exact applyToRegion_lookup_ne hq _ _ _ _
      | some ps =>
        by_cases hdesc : SliceTransform.is_descendant region dr ps = true
        · dsimp only
          rw [if_pos hdesc]
          exact applyToRegion_lookup_ne hq _ _ _ _
        · dsimp only
          rw [if_neg hdesc]

/-- C3 (counterexample): the effective `SliceTransform._execute` does not
preserve the empty region.  On an input whose only slice tuple is the empty
region with feature table `{Cost: [100]}` and no transformations, the output
is the empty `SliceRelation` — the empty region's feature map is not carried
over, contradicting the claim that it passes through unmodified. -/
theorem sliceTransform_empty_region_cex :
    SliceTransform.execute
      ⟨[], RelationSchema.ofList ["Device", "Browser"], none, none⟩
      ⟨RelationSchema.ofList ["Device", "Browser"],
        [(create_relation_tuple [],
          [(RelationSchema.ofList ["Cost"], ⟨["Cost"], [[Val.int 100]]⟩)])]⟩ =
      Except.ok ⟨RelationSchema.ofList ["Device", "Browser"], []⟩ := rfl

/-- C3 (amended): `SliceTransform` drops the empty/global region: whenever
execution succeeds, the output `SliceRelation` has no binding for the empty
region at all — its feature tables are consulted only as reference data and
are not passed through. -/
theorem sliceTransform_drops_empty_region (op : SliceTransform)
    (data : SliceRelation) (out : SliceRelation)
    (h : op.execute data = Except.ok out) :
    lookupA (create_relation_tuple []) out.data = none := by
  unfold SliceTransform.execute at h
  by_cases hc : (op.slice_transformations.any fun t =>
      t.require_reference_data &&
        (lookupA t.feature_schema data.referenceFeatures).isNone) = true
  · rw [if_pos hc] at h
    cases h
  · rw [if_neg hc] at h
    injection h with h
    subst h
    rw [lookupA_foldl_preserve (create_relation_tuple []) _
      (fun acc rf => processRegion_lookup_empty op _ _ acc rf.1 rf.2) data.data _]
    rfl

/-- C3 (witness for the amended theorem): on the concrete input of the
counterexample, the amended theorem applies and the empty region is indeed
absent from the output. -/
theorem sliceTransform_drops_empty_region_witness :
    lookupA (create_relation_tuple [])
      (SliceRelation.mk (RelationSchema.ofList ["Device", "Browser"]) []).data = none :=
  sliceTransform_drops_empty_region
    ⟨[], RelationSchema.ofList ["Device", "Browser"], none, none⟩
    ⟨RelationSchema.ofList ["Device", "Browser"],
      [(create_relation_tuple [],
        [(RelationSchema.ofList ["Cost"], ⟨["Cost"], [[Val.int 100]]⟩)])]⟩
    ⟨RelationSchema.ofList ["Device", "Browser"], []⟩ rfl

/-- C5: if some transformation declares that it requires reference data but
no feature table under its schema exists at the empty region of the input,
`SliceTransform` fails with the reference-data validation error (the
`ValueError` of the `reference_data` setter), before any region is processed
and producing no output `SliceRelation` at all. -/
theorem sliceTransform_missing_reference_error (op : SliceTransform)
    (data : SliceRelation) (t : SliceTransformation)
    (ht : t ∈ op.slice_transformations)
    (hreq : t.require_reference_data = true)
    (habs : lookupA t.feature_schema data.referenceFeatures = none) :
    op.execute data = Except.error refDataErrMsg := by
  have hc : (op.slice_transformations.any fun tr =>
      tr.require_reference_data &&
        (lookupA tr.feature_schema data.referenceFeatures).isNone) = true :=
    List.any_eq_true.mpr ⟨t, ht, by rw [hreq, habs]; rfl⟩
  unfold SliceTransform.execute
  rw [if_pos hc]

/-- C5 (witness): a transformation requiring reference data, run on an input
with no empty-region feature table, makes `SliceTransform` fail with the
validation error. -/
theorem sliceTransform_missing_reference_error_witness :
    SliceTransform.execute
      ⟨[⟨RelationSchema.ofList ["Cost"], true, fun _ df => df⟩],
        RelationSchema.ofList ["Device"], none, none⟩
      ⟨RelationSchema.ofList ["Device"], []⟩ =
      Except.error refDataErrMsg :=
  sliceTransform_missing_reference_error
    ⟨[⟨RelationSchema.ofList ["Cost"], true, fun _ df => df⟩],
      RelationSchema.ofList ["Device"], none, none⟩
    ⟨RelationSchema.ofList ["Device"], []⟩
    ⟨RelationSchema.ofList ["Cost"], true, fun _ df => df⟩
    (by simp) rfl rfl

/-! ### RelationSpace fold lemmas -/

/-- A fold of `add_relation` steps keeps the space's dimensions and acts on
the relation dictionary as the corresponding fold of updates. -/
theorem foldl_add_relation_split {γ : Type} (key : γ → RelationSchema)
    (val : γ → DataFrame) :
    ∀ (l : List γ) (space : RelationSpace),
      (l.foldl (fun s a => s.add_relation (val a) (key a)) space).dimensions =
          space.dimensions ∧
      (l.foldl (fun s a => s.add_relation (val a) (key a)) space).relations =
        l.foldl (fun m a => updateAssoc (key a) (val a) m) space.relations
  | [], _ => ⟨rfl, rfl⟩
  | a :: tl, space => by
    rw [List.foldl_cons, List.foldl_cons]
    exact foldl_add_relation_split key val tl _

/-- C4 (counterexample): `Flatten` does not skip the empty region.  On an
input whose only slice tuple is the empty region with feature table
`{Cost: [100]}`, the output space stores, under the empty schema, the
cross-join of that feature table with the empty region's zero-column one-row
table — the empty region does contribute a table, contradicting the claim
that it is skipped entirely. -/
theorem flatten_empty_region_cex :
    Flatten.execute ⟨RelationSchema.ofList ["Device"]⟩
      ⟨RelationSchema.ofList ["Device"],
        [(create_relation_tuple [],
          [(RelationSchema.ofList ["Cost"], ⟨["Cost"], [[Val.int 100]]⟩)])]⟩ =
      ⟨RelationSchema.ofList ["Device"],
        [(RelationSchema.ofList [], ⟨["Cost"], [[Val.int 100]]⟩)]⟩ := rfl

/-- C4 (amended): `Flatten` processes every region of the input — the empty
region is not exempted: each region, provided the regions' attribute sets are
pairwise distinct (otherwise a later region overwrites an earlier one with
the same schema), yields the one-row table of its attribute/value pairs
cross-joined in turn with each of its non-empty feature tables, stored under
the schema of the region's own attributes; the output space's dimension
schema is the caller-supplied one. -/
theorem flatten_processes_all_regions (op : Flatten) (data : SliceRelation)
    (hn : (data.data.map (fun rf => RelationSchema.ofList (rf.1.map Prod.fst))).Nodup) :
    (op.execute data).dimensions = op.dimensions ∧
    ∀ rf ∈ data.data,
      (op.execute data).get_relation (RelationSchema.ofList (rf.1.map Prod.fst)) =
        some (Flatten.regionTable rf.1 rf.2) := by
  have hs := foldl_add_relation_split
    (fun rf : RelationTuple × FeatureMap => RelationSchema.ofList (rf.1.map Prod.fst))
    (fun rf => Flatten.regionTable rf.1 rf.2)
    data.data ⟨op.dimensions, []⟩
  constructor
  · exact hs.1
  · intro rf hrf
    show lookupA (RelationSchema.ofList (rf.1.map Prod.fst))
      (op.execute data).relations = _
    rw [show (op.execute data).relations =
        data.data.foldl (fun m a => updateAssoc (RelationSchema.ofList (a.1.map Prod.fst))
          (Flatten.regionTable a.1 a.2) m) [] from hs.2]
    rw [lookupA_foldl_update]
    have hfind : data.data.reverse.find?
        (fun a => decide (RelationSchema.ofList (a.1.map Prod.fst) =
          RelationSchema.ofList (rf.1.map Prod.fst))) = some rf := by
      refine find?_eq_some_of_unique (List.mem_reverse.mpr hrf) (by simp) ?_
      intro y hy hp
      exact List.inj_on_of_nodup_map hn (List.mem_reverse.mp hy) hrf
        (of_decide_eq_true hp)
    rw [hfind]

/-- C4 (witness for the amended theorem): on the counterexample input, the
amended theorem yields the stored table of the empty region. -/
theorem flatten_processes_all_regions_witness :
    ((([(create_relation_tuple ([] : List (String × Val)),
        [(RelationSchema.ofList ["Cost"],
          (⟨["Cost"], [[Val.int 100]]⟩ : DataFrame))])]).map
        (fun rf => RelationSchema.ofList (rf.1.map Prod.fst))).Nodup) ∧
    ((Flatten.execute ⟨RelationSchema.ofList ["Device"]⟩
        ⟨RelationSchema.ofList ["Device"],
          [(create_relation_tuple [],
            [(RelationSchema.ofList ["Cost"], ⟨["Cost"], [[Val.int 100]]⟩)])]⟩).dimensions =
      RelationSchema.ofList ["Device"] ∧
    ∀ rf ∈ [(create_relation_tuple ([] : List (String × Val)),
        [(RelationSchema.ofList ["Cost"],
          (⟨["Cost"], [[Val.int 100]]⟩ : DataFrame))])],
      (Flatten.execute ⟨RelationSchema.ofList ["Device"]⟩
        ⟨RelationSchema.ofList ["Device"],
          [(create_relation_tuple [],
            [(RelationSchema.ofList ["Cost"], ⟨["Cost"], [[Val.int 100]]⟩)])]⟩).get_relation
          (RelationSchema.ofList (rf.1.map Prod.fst)) =
        some (Flatten.regionTable rf.1 rf.2)) :=
  ⟨by decide, flatten_processes_all_regions ⟨RelationSchema.ofList ["Device"]⟩
    ⟨RelationSchema.ofList ["Device"],
      [(create_relation_tuple [],
        [(RelationSchema.ofList ["Cost"], ⟨["Cost"], [[Val.int 100]]⟩)])]⟩
    (by decide)⟩

/-- C6: on any base table, `CreateRelationSpaceByCube` with a duplicate-free
list of `k` grouping keys stores exactly `2^k` relations, one per subset `S`
of the grouping keys — the empty subset's table being the single aggregate
row over the whole table and every other subset's table the group-by-`S`
aggregate; in particular, with grouping keys `[Device, Browser]` the stored
dictionary consists of exactly the four entries keyed by the schemas `{}`,
`{Browser}`, `{Device}`, `{Device, Browser}`. -/
theorem cube_powerset_complete :
    (∀ (op : CreateRelationSpaceByCube) (df : DataFrame),
      op.grouping_keys.Nodup →
      (op.execute df).relations.length = 2 ^ op.grouping_keys.length) ∧
    (∀ (op : CreateRelationSpaceByCube) (df : DataFrame) (S : List String),
      op.grouping_keys.Nodup → List.Sublist S op.grouping_keys →
      (op.execute df).get_relation (RelationSchema.ofList S) =
        some (if S = [] then df.aggRow op.aggregations
          else df.groupbyAgg S op.aggregations)) ∧
    (∀ (df : DataFrame) (aggs : List (String × (List Val → Val))),
      (CreateRelationSpaceByCube.execute ⟨["Device", "Browser"], aggs⟩ df).relations =
        [(RelationSchema.ofList [], df.aggRow aggs),
         (RelationSchema.ofList ["Browser"], df.groupbyAgg ["Browser"] aggs),
         (RelationSchema.ofList ["Device"], df.groupbyAgg ["Device"] aggs),
         (RelationSchema.ofList ["Device", "Browser"],
           df.groupbyAgg ["Device", "Browser"] aggs)]) := by
  have hkeysnd : ∀ (keys : List String), keys.Nodup →
      ((powerSetList keys).map (fun g => RelationSchema.ofList g)).Nodup := by
    intro keys h
    refine (List.Nodup.map_on ?_ (powerSetList_nodup h))
    intro x hx y hy hxy
    exact ofList_inj_on_sublists h (mem_powerSetList hx) (mem_powerSetList hy) hxy
  refine ⟨?_, ?_, ?_⟩
  · intro op df hnd
    have hs := foldl_add_relation_split
      (fun g => RelationSchema.ofList g)
      (fun g => if g = [] then df.aggRow op.aggregations
        else df.groupbyAgg g op.aggregations)
      (powerSetList op.grouping_keys)
      ⟨RelationSchema.ofList op.grouping_keys, []⟩
    have hlen := length_foldl_update
      (fun g : List String => RelationSchema.ofList g)
      (fun g => if g = [] then df.aggRow op.aggregations
        else df.groupbyAgg g op.aggregations)
      (powerSetList op.grouping_keys) []
      (fun _ _ => rfl) (hkeysnd _ hnd)
    calc (op.execute df).relations.length
        = ((powerSetList op.grouping_keys).foldl
            (fun m g => updateAssoc (RelationSchema.ofList g)
              (if g = [] then df.aggRow op.aggregations
                else df.groupbyAgg g op.aggregations) m) []).length :=
          congrArg List.length hs.2
      _ = 2 ^ op.grouping_keys.length := by
          rw [hlen, powerSetList_length]
          simp
  · intro op df S hnd hsub
    have hs := foldl_add_relation_split
      (fun g => RelationSchema.ofList g)
      (fun g => if g = [] then df.aggRow op.aggregations
        else df.groupbyAgg g op.aggregations)
      (powerSetList op.grouping_keys)
      ⟨RelationSchema.ofList op.grouping_keys, []⟩
    show lookupA (RelationSchema.ofList S) (op.execute df).relations = _
    rw [show (op.execute df).relations =
        (powerSetList op.grouping_keys).foldl
          (fun m g => updateAssoc (RelationSchema.ofList g)
            (if g = [] then df.aggRow op.aggregations
              else df.groupbyAgg g op.aggregations) m) [] from hs.2]
    rw [lookupA_foldl_update]
    have hfind : (powerSetList op.grouping_keys).reverse.find?
        (fun g => decide (RelationSchema.ofList g = RelationSchema.ofList S)) =
        some S := by
      refine find?_eq_some_of_unique
        (List.mem_reverse.mpr (self_mem_powerSetList hsub)) (by simp) ?_
      intro y hy hp
      exact ofList_inj_on_sublists hnd
        (mem_powerSetList (List.mem_reverse.mp hy)) hsub (of_decide_eq_true hp)
    rw [hfind]
  · intro df aggs
    rfl

/-- C6 (witness): the cube on grouping keys `[Device, Browser]` of a concrete
two-row table stores exactly `2^2 = 4` relations, and looking the subset
`[Device]` up yields its group-by aggregate. -/
theorem cube_powerset_complete_witness :
    (["Device", "Browser"] : List String).Nodup ∧
    List.Sublist ["Device"] ["Device", "Browser"] ∧
    ((CreateRelationSpaceByCube.execute ⟨["Device", "Browser"], []⟩
        ⟨["Device", "Browser", "Cost"],
         [[Val.str "Pixel", Val.str "Chrome", Val.int 100],
          [Val.str "Pixel", Val.str "Safari", Val.int 200]]⟩).relations.length =
      2 ^ (["Device", "Browser"] : List String).length) ∧
    ((CreateRelationSpaceByCube.execute ⟨["Device", "Browser"], []⟩
        ⟨["Device", "Browser", "Cost"],
         [[Val.str "Pixel", Val.str "Chrome", Val.int 100],
          [Val.str "Pixel", Val.str "Safari", Val.int 200]]⟩).get_relation
        (RelationSchema.ofList ["Device"]) =
      some (if ["Device"] = ([] : List String)
        then DataFrame.aggRow ⟨["Device", "Browser", "Cost"],
          [[Val.str "Pixel", Val.str "Chrome", Val.int 100],
           [Val.str "Pixel", Val.str "Safari", Val.int 200]]⟩ []
        else DataFrame.groupbyAgg ⟨["Device", "Browser", "Cost"],
          [[Val.str "Pixel", Val.str "Chrome", Val.int 100],
           [Val.str "Pixel", Val.str "Safari", Val.int 200]]⟩ ["Device"] [])) :=
  ⟨by decide, by decide,
    cube_powerset_complete.1 ⟨["Device", "Browser"], []⟩ _ (by decide),
    cube_powerset_complete.2.1 ⟨["Device", "Browser"], []⟩ _ ["Device"]
      (by decide) (by decide)⟩

/-- C7: for a (region schema, feature schema) pair whose target key `K` — the
pair's attributes intersected with the space's dimensions — has no stored
table, or whose stored table lacks some required column, `Represent` does not
fail: the pair contributes nothing, and the run over any surrounding pair
list equals the run with that pair removed (all other pairs are still
processed). -/
theorem represent_skips_missing_pair (space : RelationSpace)
    (xs ys : List (RelationSchema × RelationSchema)) (r f : RelationSchema)
    (h : ∀ tbl, space.get_relation (Represent.targetDimSchema space r f) = some tbl →
      ¬ (∀ c ∈ r.attributes ++ f.attributes, c ∈ tbl.cols)) :
    Represent.run space (xs ++ (r, f) :: ys) = Represent.run space (xs ++ ys) := by
  have hskip : ∀ acc, Represent.processPair space acc r f = acc := by
    intro acc
    unfold Represent.processPair
    cases hrel : space.get_relation (Represent.targetDimSchema space r f) with
    | none => rfl
    | some tbl =>
      dsimp only
      rw [if_pos (h tbl hrel)]
  unfold Represent.run
  rw [List.foldl_append, List.foldl_append, List.foldl_cons]
  rw [show Represent.processPair space
    (xs.foldl (fun acc rf => Represent.processPair space acc rf.1 rf.2)
      ⟨space.dimensions, []⟩) r f =
    xs.foldl (fun acc rf => Represent.processPair space acc rf.1 rf.2)
      ⟨space.dimensions, []⟩ from hskip _]

/-- C7 (witness): with an empty relation store, the pair
`({Device}, {Cost})` is skipped silently and the remaining pair list is still
processed. -/
theorem represent_skips_missing_pair_witness :
    (∀ tbl, (RelationSpace.mk (RelationSchema.ofList ["Device"]) []).get_relation
        (Represent.targetDimSchema ⟨RelationSchema.ofList ["Device"], []⟩
          (RelationSchema.ofList ["Device"]) (RelationSchema.ofList ["Cost"])) =
        some tbl →
      ¬ (∀ c ∈ (RelationSchema.ofList ["Device"]).attributes ++
          (RelationSchema.ofList ["Cost"]).attributes, c ∈ tbl.cols)) ∧
    Represent.run ⟨RelationSchema.ofList ["Device"], []⟩
      ([] ++ (RelationSchema.ofList ["Device"], RelationSchema.ofList ["Cost"]) :: []) =
    Represent.run ⟨RelationSchema.ofList ["Device"], []⟩ ([] ++ []) :=
  ⟨fun tbl h => by simp [RelationSpace.get_relation, lookupA] at h,
    represent_skips_missing_pair ⟨RelationSchema.ofList ["Device"], []⟩ [] []
      (RelationSchema.ofList ["Device"]) (RelationSchema.ofList ["Cost"])
      (fun tbl h => by simp [RelationSpace.get_relation, lookupA] at h)⟩

/-! ### SliceSelect lemmas -/

/-- Re-adding a non-empty feature map under region `r` makes `r` present. -/
theorem lookupA_inner_fold_isSome (r : RelationTuple) :
    ∀ (fm : FeatureMap) (acc : SliceRelation),
      fm ≠ [] ∨ (lookupA r acc.data).isSome = true →
      (lookupA r
        ((fm.foldl (fun a fd => a.add_slice_tuple r fd.1 fd.2) acc).data)).isSome = true
  | [], _, h => by
    rcases h with h | h
    · exact absurd rfl h
    · exact h
  | fd :: t, acc, _ => by
    rw [List.foldl_cons]
    exact lookupA_inner_fold_isSome r t _
      (Or.inr (by rw [lookupA_add_slice_tuple_self]; rfl))

/-- A fold whose steps leave the binding of `q` unchanged for the list's
members leaves it unchanged overall. -/
theorem lookupA_foldl_preserve_mem {γ : Type} (q : RelationTuple)
    (step : SliceRelation → γ → SliceRelation) :
    ∀ (l : List γ) (acc : SliceRelation),
      (∀ (acc' : SliceRelation) (a : γ), a ∈ l →
        lookupA q (step acc' a).data = lookupA q acc'.data) →
      lookupA q (l.foldl step acc).data = lookupA q acc.data
  | [], _, _ => rfl
  | a :: t, acc, hstep => by
    rw [List.foldl_cons,
      lookupA_foldl_preserve_mem q step t _
        (fun acc' b hb => hstep acc' b (List.mem_cons_of_mem _ hb)),
      hstep acc a (by simp)]

/-- One `SliceSelect` loop step over a slice tuple of a region other than `q`
leaves `q`'s binding unchanged. -/
theorem sliceSelect_step_preserve (op : SliceSelect) {q : RelationTuple}
    (acc : SliceRelation) (rf : RelationTuple × FeatureMap) (h : q ≠ rf.1) :
    lookupA q ((if op.predicate_func rf.1 rf.2 then
        rf.2.foldl (fun a fd => a.add_slice_tuple rf.1 fd.1 fd.2) acc
      else acc)).data = lookupA q acc.data := by
  by_cases hp : op.predicate_func rf.1 rf.2 = true
  · rw [if_pos hp]
    exact lookupA_foldl_preserve q _
      (fun acc' fd => lookupA_add_slice_tuple_ne _ h _ _) rf.2 acc
  · rw [if_neg hp]

/-- The `SliceSelect` fold applies the predicate to the (unique) empty-region
slice tuple exactly like any other: the empty region ends up present in the
result iff the predicate accepted it. -/
theorem sliceSelect_fold_empty (op : SliceSelect) :
    ∀ (l : List (RelationTuple × FeatureMap)) (acc : SliceRelation)
      (m : FeatureMap),
      (l.map Prod.fst).Nodup →
      lookupA (create_relation_tuple []) l = some m → m ≠ [] →
      lookupA (create_relation_tuple []) acc.data = none →
      (lookupA (create_relation_tuple [])
        ((l.foldl (fun acc rf => if op.predicate_func rf.1 rf.2 then
            rf.2.foldl (fun a fd => a.add_slice_tuple rf.1 fd.1 fd.2) acc
          else acc) acc).data)).isSome =
        op.predicate_func (create_relation_tuple []) m
  | [], _, m, _, hm, _, _ => by simp [lookupA] at hm
  | rf :: t, acc, m, hnd, hm, hne, hacc => by
    rw [List.foldl_cons]
    by_cases hr : rf.1 = create_relation_tuple []
    · have hmm : m = rf.2 := by
        rw [lookupA, if_pos hr] at hm
        exact (Option.some.injEq _ _).mp hm.symm
      subst hmm
      have hnotail : ∀ (acc' : SliceRelation) (b : RelationTuple × FeatureMap), b ∈ t →
          lookupA (create_relation_tuple [])
            ((if op.predicate_func b.1 b.2 then
              b.2.foldl (fun a fd => a.add_slice_tuple b.1 fd.1 fd.2) acc'
            else acc')).data = lookupA (create_relation_tuple []) acc'.data := by
        intro acc' b hb
        have hbne : create_relation_tuple [] ≠ b.1 := by
          intro hq
          have := (List.nodup_cons.mp hnd).1
          exact this (by rw [hr, hq]; exact List.mem_map_of_mem Prod.fst hb)
        exact sliceSelect_step_preserve op acc' b hbne
      rw [lookupA_foldl_preserve_mem (create_relation_tuple []) _ t _ hnotail]
      by_cases hp : op.predicate_func rf.1 rf.2 = true
      · rw [hr] at hp ⊢
        rw [if_pos hp, hp]
        exact lookupA_inner_fold_isSome _ rf.2 acc (Or.inl hne)
      · rw [if_neg hp]
        rw [hr] at hp
        rw [hacc, eq_comm]
        simpa using hp
    · have hmt : lookupA (create_relation_tuple []) t = some m := by
        rw [lookupA, if_neg hr] at hm
        exact hm
      have hstep : lookupA (create_relation_tuple [])
          ((if op.predicate_func rf.1 rf.2 then
            rf.2.foldl (fun a fd => a.add_slice_tuple rf.1 fd.1 fd.2) acc
          else acc)).data = none := by
        rw [sliceSelect_step_preserve op acc rf (fun hq => hr hq.symm)]
        exact hacc
      exact sliceSelect_fold_empty op t _ m (List.nodup_cons.mp hnd).2 hmt hne hstep

/-- C10: `SliceSelect` applies its predicate uniformly to every slice tuple,
the empty/global region included: when the input binds the empty region to a
feature map `m` (non-empty, as every map built by `add_slice_tuple` is, and
with the dictionary's keys unique as in any Python dict), the output contains
the empty region iff the predicate returns true on `(empty region, m)` — no
special exemption retains it. -/
theorem sliceSelect_uniform_on_empty_region (op : SliceSelect)
    (data : SliceRelation) (m : FeatureMap)
    (hnodup : (data.data.map Prod.fst).Nodup)
    (hm : lookupA (create_relation_tuple []) data.data = some m) (hne : m ≠ []) :
    (lookupA (create_relation_tuple []) (op.execute data).data).isSome =
      op.predicate_func (create_relation_tuple []) m := by
  unfold SliceSelect.execute
  exact sliceSelect_fold_empty op data.data _ m hnodup hm hne rfl

/-- C10 (witness): a rejecting predicate drops the concrete empty-region
slice tuple — its result for the empty region is `none`, matching the
predicate's `false`. -/
theorem sliceSelect_uniform_on_empty_region_witness :
    (([(create_relation_tuple ([] : List (String × Val)),
        [(RelationSchema.ofList ["Cost"],
          (⟨["Cost"], [[Val.int 100]]⟩ : DataFrame))])].map Prod.fst).Nodup) ∧
    lookupA (create_relation_tuple [])
      [(create_relation_tuple ([] : List (String × Val)),
        [(RelationSchema.ofList ["Cost"],
          (⟨["Cost"], [[Val.int 100]]⟩ : DataFrame))])] =
      some [(RelationSchema.ofList ["Cost"], ⟨["Cost"], [[Val.int 100]]⟩)] ∧
    ((lookupA (create_relation_tuple [])
        ((SliceSelect.execute ⟨fun _ _ => false⟩
          ⟨RelationSchema.ofList [],
            [(create_relation_tuple [],
              [(RelationSchema.ofList ["Cost"], ⟨["Cost"], [[Val.int 100]]⟩)])]⟩).data)).isSome =
      false) :=
  ⟨by decide, rfl,
    sliceSelect_uniform_on_empty_region ⟨fun _ _ => false⟩
      ⟨RelationSchema.ofList [],
        [(create_relation_tuple [],
          [(RelationSchema.ofList ["Cost"], ⟨["Cost"], [[Val.int 100]]⟩)])]⟩
      [(RelationSchema.ofList ["Cost"], ⟨["Cost"], [[Val.int 100]]⟩)]
      (by decide) rfl (by decide)⟩

/-- C9: `RelationSchema` construction is order-independent — any permutation
of the attribute list yields an equal schema — and `create_relation_tuple`
canonicalizes: tuples built from the same key-to-value mapping presented in
any order (any permutation of its pairs; a mapping's keys are distinct) are
equal. -/
theorem canonicalization_correct :
    (∀ L Lp : List String, L.Perm Lp →
      RelationSchema.ofList L = RelationSchema.ofList Lp) ∧
    (∀ kvs kvsp : List (String × Val), kvs.Perm kvsp →
      (kvs.map Prod.fst).Nodup →
      create_relation_tuple kvs = create_relation_tuple kvsp) := by
  constructor
  · intro L Lp hperm
    unfold RelationSchema.ofList
    haveI : IsTotal String (fun a b => strLeB a b = true) := ⟨strLeB_total⟩
    haveI : IsTrans String (fun a b => strLeB a b = true) :=
      ⟨fun _ _ _ => strLeB_trans⟩
    haveI : IsAntisymm String (fun a b => strLeB a b = true) :=
      ⟨fun _ _ => strLeB_antisymm⟩
    have heq := List.eq_of_perm_of_sorted (r := fun a b => strLeB a b = true)
      ((List.perm_insertionSort _ L).trans (hperm.trans (List.perm_insertionSort _ Lp).symm))
      (List.sorted_insertionSort _ L) (List.sorted_insertionSort _ Lp)
    rw [heq]
  · intro kvs kvsp hperm hnodup
    unfold create_relation_tuple
    haveI : IsTotal (String × Val) (fun p q => strLeB p.1 q.1 = true) :=
      ⟨fun p q => strLeB_total p.1 q.1⟩
    haveI : IsTrans (String × Val) (fun p q => strLeB p.1 q.1 = true) :=
      ⟨fun _ _ _ => strLeB_trans⟩
    haveI : IsAntisymm (String × Val) (fun p q => strLeB p.1 q.1 = true ∧ p.1 ≠ q.1) :=
      ⟨fun p q h1 h2 => absurd (strLeB_antisymm h1.1 h2.1) h1.2⟩
    have hp1 : (List.insertionSort (fun p q : String × Val => strLeB p.1 q.1 = true) kvs).Perm
        kvs := List.perm_insertionSort _ kvs
    have hp2 : (List.insertionSort (fun p q : String × Val => strLeB p.1 q.1 = true) kvsp).Perm
        kvsp := List.perm_insertionSort _ kvsp
    have hne1 : (List.insertionSort (fun p q : String × Val => strLeB p.1 q.1 = true)
        kvs).Pairwise (fun p q => p.1 ≠ q.1) := by
      have : ((List.insertionSort (fun p q : String × Val => strLeB p.1 q.1 = true)
          kvs).map Prod.fst).Nodup := ((hp1.map Prod.fst).nodup_iff).mpr hnodup
      simpa [List.Nodup, List.pairwise_map] using this
    have hne2 : (List.insertionSort (fun p q : String × Val => strLeB p.1 q.1 = true)
        kvsp).Pairwise (fun p q => p.1 ≠ q.1) := by
      have hnodup' : (kvsp.map Prod.fst).Nodup := ((hperm.map Prod.fst).nodup_iff).mp hnodup
      have : ((List.insertionSort (fun p q : String × Val => strLeB p.1 q.1 = true)
          kvsp).map Prod.fst).Nodup := ((hp2.map Prod.fst).nodup_iff).mpr hnodup'
      simpa [List.Nodup, List.pairwise_map] using this
    exact List.eq_of_perm_of_sorted
      (r := fun p q : String × Val => strLeB p.1 q.1 = true ∧ p.1 ≠ q.1)
      (hp1.trans (hperm.trans hp2.symm))
      ((List.sorted_insertionSort _ kvs).and hne1)
      ((List.sorted_insertionSort _ kvsp).and hne2)

/-- C8: pipeline composition equals operator-list concatenation and is
associative: `P | Q` is the pipeline of the concatenated operator lists,
executing the concatenation on `d` equals executing `Q` on the result of
executing `P` on `d`, and `|` on pipelines is associative; operators run
strictly in list order, each consuming the previous operator's output. -/
theorem pipeline_composition_correct :
    (∀ (α : Type) (ops1 ops2 : List (α → α)),
      Pipeline.pipeOr ⟨ops1⟩ ⟨ops2⟩ = (⟨ops1 ++ ops2⟩ : Pipeline α)) ∧
    (∀ (α : Type) (ops1 ops2 : List (α → α)) (d : α),
      Pipeline.execute ⟨ops1 ++ ops2⟩ d =
        Pipeline.execute ⟨ops2⟩ (Pipeline.execute ⟨ops1⟩ d)) ∧
    (∀ (α : Type) (p q s : Pipeline α),
      (p.pipeOr q).pipeOr s = p.pipeOr (q.pipeOr s)) ∧
    (∀ (α : Type) (f : α → α) (ops : List (α → α)) (d : α),
      Pipeline.execute ⟨f :: ops⟩ d = Pipeline.execute ⟨ops⟩ (f d)) := by
  refine ⟨fun α ops1 ops2 => rfl, fun α ops1 ops2 d => ?_, fun α p q s => ?_,
    fun α f ops d => rfl⟩
  · simp [Pipeline.execute, List.foldl_append]
  · simp [Pipeline.pipeOr, List.append_assoc]

/-- C1 (code evaluation at the failing input): `RelationSpace.add_relation`
performs no validation.  With dimension schema `{Device, Browser}`, adding the
table with columns `{Device, Browser, Revenue}` under schema `{Device}` — the
input `src/mra_data_test.py::test_add_relation_invalid` expects to raise a
`ValueError` — instead succeeds and stores the table, modifying the space;
the valid add (columns `{Device, Cost}` under `{Device}`) also succeeds. -/
theorem add_relation_performs_no_validation :
    ((RelationSpace.mk (RelationSchema.ofList ["Device", "Browser"]) []).add_relation
        ⟨["Device", "Browser", "Revenue"],
         [[Val.str "Pixel", Val.str "Chrome", Val.int 500]]⟩
        (RelationSchema.ofList ["Device"])).relations =
      [(RelationSchema.ofList ["Device"],
        ⟨["Device", "Browser", "Revenue"],
         [[Val.str "Pixel", Val.str "Chrome", Val.int 500]]⟩)] ∧
    ((RelationSpace.mk (RelationSchema.ofList ["Device", "Browser"]) []).add_relation
        ⟨["Device", "Cost"], [[Val.str "Pixel", Val.int 100]]⟩
        (RelationSchema.ofList ["Device"])).relations =
      [(RelationSchema.ofList ["Device"],
        ⟨["Device", "Cost"], [[Val.str "Pixel", Val.int 100]]⟩)] :=
  ⟨rfl, rfl⟩

/-- C2: the descendant check returns true iff for every index `i` of the
candidate's components, letting `P` be the schema of the projection obtained
by removing component `i`, either `P` is not among the parent schemas
(vacuously passes) or the projected tuple is among the parent regions; a
region with zero components always passes.  Consequently, with parent regions
`{Device=Pixel}` and `{Browser=Chrome}` and parent schemas
`{{Device},{Browser}}`, candidate `{Device=Pixel, Browser=Chrome}` passes and
`{Device=Pixel, Browser=Safari}` fails; with parent schemas restricted to
`{{Device}}` and parent regions `{Device=Pixel}`, both candidates pass. -/
theorem is_descendant_correct :
    (∀ (r : RelationTuple) (ps : List RelationTuple) (ss : List RelationSchema),
      SliceTransform.is_descendant r ps ss = true ↔
        ∀ i < r.length,
          RelationSchema.ofList ((r.take i ++ r.drop (i + 1)).map Prod.fst) ∈ ss →
            create_relation_tuple (r.take i ++ r.drop (i + 1)) ∈ ps) ∧
    (∀ (ps : List RelationTuple) (ss : List RelationSchema),
      SliceTransform.is_descendant [] ps ss = true) ∧
    (SliceTransform.is_descendant
      (create_relation_tuple [("Device", Val.str "Pixel"), ("Browser", Val.str "Chrome")])
      [create_relation_tuple [("Device", Val.str "Pixel")],
       create_relation_tuple [("Browser", Val.str "Chrome")]]
      [RelationSchema.ofList ["Device"], RelationSchema.ofList ["Browser"]] = true) ∧
    (SliceTransform.is_descendant
      (create_relation_tuple [("Device", Val.str "Pixel"), ("Browser", Val.str "Safari")])
      [create_relation_tuple [("Device", Val.str "Pixel")],
       create_relation_tuple [("Browser", Val.str "Chrome")]]
      [RelationSchema.ofList ["Device"], RelationSchema.ofList ["Browser"]] = false) ∧
    (SliceTransform.is_descendant
      (create_relation_tuple [("Device", Val.str "Pixel"), ("Browser", Val.str "Chrome")])
      [create_relation_tuple [("Device", Val.str "Pixel")]]
      [RelationSchema.ofList ["Device"]] = true) ∧
    (SliceTransform.is_descendant
      (create_relation_tuple [("Device", Val.str "Pixel"), ("Browser", Val.str "Safari")])
      [create_relation_tuple [("Device", Val.str "Pixel")]]
      [RelationSchema.ofList ["Device"]] = true) := by
  refine ⟨fun r ps ss => ?_, fun ps ss => rfl, by decide, by decide, by decide, by decide⟩
  simp only [SliceTransform.is_descendant, List.all_eq_true, List.mem_range]
  constructor
  · intro h i hi hmem
    have hx := h i hi
    rw [if_pos hmem] at hx
    exact of_decide_eq_true hx
  · intro h i hi
    by_cases hmem :
        RelationSchema.ofList ((r.take i ++ r.drop (i + 1)).map Prod.fst) ∈ ss
    · rw [if_pos hmem]
      exact decide_eq_true (h i hi hmem)
    · rw [if_neg hmem]

/-- C2 (witness): through the characterization, a one-component region passes
against an empty frontier (every projection's schema is unknown). -/
theorem is_descendant_correct_witness :
    SliceTransform.is_descendant
      (create_relation_tuple [("Device", Val.str "Pixel")]) [] [] = true :=
  (is_descendant_correct.1 (create_relation_tuple [("Device", Val.str "Pixel")])
    [] []).mpr (fun _ _ hmem => (List.not_mem_nil _ hmem).elim)

/-- C8 (witness): concatenated execution agrees with staged execution on a
concrete pipeline over natural numbers. -/
theorem pipeline_composition_correct_witness :
    Pipeline.execute ⟨[(· + 1), (· * 2)] ++ [(· + 3)]⟩ (0 : Nat) =
      Pipeline.execute ⟨[(· + 3)]⟩ (Pipeline.execute ⟨[(· + 1), (· * 2)]⟩ 0) :=
  pipeline_composition_correct.2.1 Nat [(· + 1), (· * 2)] [(· + 3)] 0

/-- C9 (witness): the concrete permuted attribute lists and pair lists of the
spec's example produce equal schemas and equal tuples. -/
theorem canonicalization_correct_witness :
    RelationSchema.ofList ["Device", "Browser"] =
      RelationSchema.ofList ["Browser", "Device"] ∧
    create_relation_tuple [("Device", Val.str "Pixel"), ("Browser", Val.str "Chrome")] =
      create_relation_tuple [("Browser", Val.str "Chrome"), ("Device", Val.str "Pixel")] :=
  ⟨canonicalization_correct.1 ["Device", "Browser"] ["Browser", "Device"]
      (List.Perm.swap "Browser" "Device" []),
    canonicalization_correct.2
      [("Device", Val.str "Pixel"), ("Browser", Val.str "Chrome")]
      [("Browser", Val.str "Chrome"), ("Device", Val.str "Pixel")]
      (List.Perm.swap ("Browser", Val.str "Chrome") ("Device", Val.str "Pixel") [])
      (by decide)⟩

end MRA
